import Mathlib

/-!
Verification of the medspaCy matcher core
(`medspacy/common/medspacy_matcher.py`): the match data model, the
overlap test, the longest-span-wins pruning algorithm applied to
fixpoint, the rule registry `MedspacyMatcher.add`, and the span
materializer `matches_to_spans`, shallowly embedded in Lean.

`matches` is a reserved word in Lean, so the Python parameter
`matches` is consistently rendered `matchList`.
-/

namespace Medspacy

/-- A raw match as produced by the spaCy matchers and consumed by
`prune_overlapping_matches`: a tuple `(match_id, start, end)`.  The
match id is the vocabulary hash of the rule id string; start and end
are token offsets (Python ints, hence `Int`). -/
abbrev MatchTup : Type := Nat × Int × Int

/-- Source `_match_overlaps(a, b)`: true when `a`'s start lies inside
`b`'s half-open interval, or `a`'s end lies strictly inside it
(`a_end > b_start and a_end <= b_end`). -/
def _match_overlaps (a b : MatchTup) : Bool :=
  decide (a.2.1 ≥ b.2.1 ∧ a.2.1 < b.2.2) || decide (a.2.2 > b.2.1 ∧ a.2.2 ≤ b.2.2)

/-- Source `overlaps(a, b)`: the symmetric closure of `_match_overlaps`. -/
def overlaps (a b : MatchTup) : Bool :=
  _match_overlaps a b || _match_overlaps b a

/-- The sort key used by `prune_overlapping_matches`:
`sorted(matches, key=lambda x: (x[1], x[2]))`, i.e. lexicographic
comparison on `(start, end)`. -/
def matchLe (a b : MatchTup) : Bool :=
  decide (a.2.1 < b.2.1 ∨ (a.2.1 = b.2.1 ∧ a.2.2 ≤ b.2.2))

/-- `sorted(matches, key=lambda x: (x[1], x[2]))`.  Python's `sorted`
is a stable sort, as is `List.mergeSort`, so for the same total
preorder they produce the same list. -/
def sortMatches (matchList : List MatchTup) : List MatchTup :=
  matchList.mergeSort matchLe

/-- Source `max(curr_match, next_match, key=lambda x: (x[2] - x[1]))`:
Python's `max` returns the first argument on ties, so the second
argument is chosen only when its span is strictly longer. -/
def longer_span (curr_match next_match : MatchTup) : MatchTup :=
  if next_match.2.2 - next_match.2.1 > curr_match.2.2 - curr_match.2.1 then
    next_match
  else
    curr_match

/-- The `while True` loop of `prune_overlapping_matches`, with
`curr_match` the current match and the list argument playing the role
of `unpruned`; the returned list is the `pruned` accumulator.  When
the current and next match overlap, the longer span is emitted and the
following element (if any) becomes current; otherwise the current
match is emitted and the next becomes current. -/
def pruneLoop : MatchTup → List MatchTup → List MatchTup
  | curr_match, [] => [curr_match]
  | curr_match, next_match :: rest =>
    if overlaps curr_match next_match then
      match rest with
      | [] => [longer_span curr_match next_match]
      | c :: rest2 => longer_span curr_match next_match :: pruneLoop c rest2
    else
      curr_match :: pruneLoop next_match rest

theorem pruneLoop_length (curr_match : MatchTup) (l : List MatchTup) :
    (pruneLoop curr_match l).length ≤ l.length + 1 := by
  induction curr_match, l using pruneLoop.induct with
  | case1 c => simp [pruneLoop]
  | case2 c n hov => simp [pruneLoop, hov]
  | case3 c n hov r rest2 ih =>
    simp only [pruneLoop, hov, if_true, List.length_cons]
    omega
  | case4 c n rest hov ih =>
    simp only [Bool.not_eq_true] at hov
    rw [pruneLoop.eq_def]
    simp only [hov, Bool.false_eq_true, if_false, List.length_cons]
    omega

/-- Every element the sweep emits is one of its inputs, in input
order: the `pruned` list is a sublist of `curr_match :: unpruned`. -/
theorem pruneLoop_sublist (curr_match : MatchTup) (l : List MatchTup) :
    List.Sublist (pruneLoop curr_match l) (curr_match :: l) := by
  induction curr_match, l using pruneLoop.induct with
  | case1 c => simp [pruneLoop]
  | case2 c n hov =>
    simp only [pruneLoop, hov, if_true]
    by_cases hl : longer_span c n = n
    · rw [hl]
      exact List.Sublist.cons c (List.Sublist.refl [n])
    · have : longer_span c n = c := by
        unfold longer_span at hl ⊢
        by_cases hgt : n.2.2 - n.2.1 > c.2.2 - c.2.1 <;> simp [hgt] at hl ⊢
      rw [this]
      exact (List.nil_sublist [n]).cons₂ c
  | case3 c n hov r rest2 ih =>
    simp only [pruneLoop, hov, if_true]
    by_cases hl : longer_span c n = n
    · rw [hl]
      exact List.Sublist.cons c (List.Sublist.cons₂ n ih)
    · have : longer_span c n = c := by
        unfold longer_span at hl ⊢
        by_cases hgt : n.2.2 - n.2.1 > c.2.2 - c.2.1 <;> simp [hgt] at hl ⊢
      rw [this]
      exact List.Sublist.cons₂ c (List.Sublist.cons n ih)
  | case4 c n rest hov ih =>
    simp only [Bool.not_eq_true] at hov
    rw [pruneLoop.eq_def]
    simp only [hov, Bool.false_eq_true, if_false]
    exact ih.cons₂ c

/-- If a sweep does not shorten the list (output length is input
length), then no collision was taken: the sweep is the identity and no
two adjacent entries overlap. -/
theorem pruneLoop_fix (curr_match : MatchTup) (l : List MatchTup)
    (hlen : (pruneLoop curr_match l).length = l.length + 1) :
    pruneLoop curr_match l = curr_match :: l ∧
      List.Chain (fun a b => overlaps a b = false) curr_match l := by
  induction curr_match, l using pruneLoop.induct with
  | case1 c => simp [pruneLoop, List.Chain.nil]
  | case2 c n hov =>
    simp [pruneLoop, hov] at hlen
  | case3 c n hov r rest2 ih =>
    exfalso
    have hle := pruneLoop_length r rest2
    simp only [pruneLoop, hov, if_true, List.length_cons] at hlen
    omega
  | case4 c n rest hov ih =>
    have hov' : overlaps c n = false := by
      simpa using hov
    rw [pruneLoop.eq_def] at hlen ⊢
    simp only [hov', Bool.false_eq_true, if_false, List.length_cons] at hlen ⊢
    have := ih (by omega)
    exact ⟨by rw [this.1], List.Chain.cons hov' this.2⟩

/-- Conversely, a sweep over a list whose adjacent entries never
overlap emits every element unchanged. -/
theorem pruneLoop_of_chain (curr_match : MatchTup) (l : List MatchTup)
    (hc : List.Chain (fun a b => overlaps a b = false) curr_match l) :
    pruneLoop curr_match l = curr_match :: l := by
  induction l generalizing curr_match with
  | nil => simp [pruneLoop]
  | cons n rest ih =>
    rcases hc with _ | ⟨hov, hrest⟩
    rw [pruneLoop.eq_def]
    simp only [hov, Bool.false_eq_true, if_false]
    rw [ih n hrest]

/-- Source `prune_overlapping_matches(matches, strategy="longest")`.
Raises `NotImplementedError` for any strategy other than `"longest"`
(modelled as `Except.error`); otherwise sorts by `(start, end)`,
sweeps once with `pruneLoop`, and recurses on the result exactly when
the sweep strictly shortened the list. -/
def prune_overlapping_matches (matchList : List MatchTup)
    (strategy : String := "longest") : Except String (List MatchTup) :=
  if strategy ≠ "longest" then
    Except.error "No other filtering strategy has been implemented. Coming in a future update."
  else
    match h : sortMatches matchList with
    | [] => Except.ok matchList
    | curr_match :: unpruned =>
      let pruned := pruneLoop curr_match unpruned
      if hne : pruned.length = matchList.length then
        Except.ok pruned
      else
        prune_overlapping_matches pruned "longest"
termination_by matchList.length
decreasing_by
  have hlen : (pruneLoop curr_match unpruned).length ≤ unpruned.length + 1 :=
    pruneLoop_length curr_match unpruned
  have hsort : (sortMatches matchList).length = matchList.length :=
    List.length_mergeSort matchList
  rw [h] at hsort
  simp only [List.length_cons] at hsort
  simp only [pruned] at hne ⊢
  omega

theorem prune_eq_error (matchList : List MatchTup) (strategy : String)
    (hs : strategy ≠ "longest") :
    prune_overlapping_matches matchList strategy =
      Except.error "No other filtering strategy has been implemented. Coming in a future update." := by
  rw [prune_overlapping_matches.eq_def matchList strategy, if_pos hs]

theorem prune_eq_nil (matchList : List MatchTup)
    (h : sortMatches matchList = []) :
    prune_overlapping_matches matchList "longest" = Except.ok matchList := by
  rw [prune_overlapping_matches.eq_def matchList "longest", if_neg (by simp)]
  split
  · rfl
  · next curr_match unpruned heq =>
    rw [h] at heq
    exact absurd heq (by simp)

theorem prune_eq_cons (matchList : List MatchTup) (curr_match : MatchTup)
    (unpruned : List MatchTup)
    (h : sortMatches matchList = curr_match :: unpruned) :
    prune_overlapping_matches matchList "longest" =
      if (pruneLoop curr_match unpruned).length = matchList.length then
        Except.ok (pruneLoop curr_match unpruned)
      else
        prune_overlapping_matches (pruneLoop curr_match unpruned) "longest" := by
  rw [prune_overlapping_matches.eq_def matchList "longest", if_neg (by simp)]
  split
  · next heq =>
    rw [h] at heq
    exact absurd heq (by simp)
  · next c u heq =>
    rw [h] at heq
    obtain ⟨rfl, rfl⟩ := by simpa using heq
    simp only [dite_eq_ite]

theorem matchLe_trans (a b c : MatchTup) :
    matchLe a b → matchLe b c → matchLe a c := by
  simp only [matchLe, decide_eq_true_eq]
  omega

theorem matchLe_total (a b : MatchTup) : matchLe a b || matchLe b a := by
  simp only [matchLe, Bool.or_eq_true, decide_eq_true_eq]
  omega

/-- Any successful pruning output is a sub-permutation of the input:
every output element is an input element, with multiplicity. -/
theorem prune_ok_subperm (matchList : List MatchTup) (strategy : String) :
    ∀ out, prune_overlapping_matches matchList strategy = Except.ok out →
      out.Subperm matchList := by
  induction matchList, strategy using prune_overlapping_matches.induct with
  | case1 ml s hs =>
    intro out hout
    rw [prune_eq_error ml s hs] at hout
    exact absurd hout (by simp)
  | case2 ml s hs hsort =>
    obtain rfl : s = "longest" := not_ne_iff.mp hs
    intro out hout
    rw [prune_eq_nil ml hsort, Except.ok.injEq] at hout
    exact hout ▸ List.Subperm.refl ml
  | case3 ml s hs curr_match unpruned hsort pruned hfix =>
    obtain rfl : s = "longest" := not_ne_iff.mp hs
    intro out hout
    rw [prune_eq_cons ml curr_match unpruned hsort, if_pos hfix,
      Except.ok.injEq] at hout
    subst hout
    exact ((pruneLoop_sublist curr_match unpruned).subperm).trans
      (hsort ▸ (List.mergeSort_perm ml matchLe).subperm)
  | case4 ml s hs curr_match unpruned hsort pruned hne ih =>
    obtain rfl : s = "longest" := not_ne_iff.mp hs
    intro out hout
    rw [prune_eq_cons ml curr_match unpruned hsort, if_neg hne] at hout
    have h1 := ih out hout
    have h2 : (pruneLoop curr_match unpruned).Subperm ml :=
      ((pruneLoop_sublist curr_match unpruned).subperm).trans
        (hsort ▸ (List.mergeSort_perm ml matchLe).subperm)
    exact h1.trans h2

/-- Any successful pruning output is sorted by `(start, end)` and no
two adjacent output entries overlap. -/
theorem prune_ok_sorted_chain (matchList : List MatchTup) (strategy : String) :
    ∀ out, prune_overlapping_matches matchList strategy = Except.ok out →
      out.Pairwise (fun a b => matchLe a b = true) ∧
        List.Chain' (fun a b => overlaps a b = false) out := by
  induction matchList, strategy using prune_overlapping_matches.induct with
  | case1 ml s hs =>
    intro out hout
    rw [prune_eq_error ml s hs] at hout
    exact absurd hout (by simp)
  | case2 ml s hs hsort =>
    obtain rfl : s = "longest" := not_ne_iff.mp hs
    intro out hout
    rw [prune_eq_nil ml hsort, Except.ok.injEq] at hout
    have hml : ml = [] := by
      have := List.mergeSort_perm ml matchLe
      rw [sortMatches] at hsort
      rw [hsort] at this
      exact (List.Perm.nil_eq this).symm
    subst hout
    rw [hml]
    exact ⟨List.Pairwise.nil, trivial⟩
  | case3 ml s hs curr_match unpruned hsort pruned hfix =>
    obtain rfl : s = "longest" := not_ne_iff.mp hs
    intro out hout
    rw [prune_eq_cons ml curr_match unpruned hsort, if_pos hfix,
      Except.ok.injEq] at hout
    subst hout
    have hlen : (pruneLoop curr_match unpruned).length = unpruned.length + 1 := by
      have hsl : (sortMatches ml).length = ml.length := List.length_mergeSort ml
      have hfix' : (pruneLoop curr_match unpruned).length = ml.length := hfix
      rw [hsort] at hsl
      simp only [List.length_cons] at hsl
      omega
    obtain ⟨hid, hchain⟩ := pruneLoop_fix curr_match unpruned hlen
    constructor
    · rw [hid, ← hsort]
      exact List.sorted_mergeSort matchLe_trans matchLe_total ml
    · rw [hid]
      exact hchain
  | case4 ml s hs curr_match unpruned hsort pruned hne ih =>
    obtain rfl : s = "longest" := not_ne_iff.mp hs
    intro out hout
    rw [prune_eq_cons ml curr_match unpruned hsort, if_neg hne] at hout
    exact ih out hout

/-- On matches in `(start, end)` order, adjacent non-overlap forces the
first interval to end at or before the second one starts. -/
theorem sep_of_adjacent (a b : MatchTup) (hle : matchLe a b = true)
    (hov : overlaps a b = false) : a.2.2 ≤ b.2.1 := by
  simp only [matchLe, decide_eq_true_eq] at hle
  simp only [overlaps, _match_overlaps, Bool.or_eq_false_iff,
    decide_eq_false_iff_not, not_and, not_lt, not_le] at hov
  omega

/-- Separated proper intervals do not overlap. -/
theorem nonov_of_sep (a b : MatchTup) (ha : a.2.1 < a.2.2)
    (hb : b.2.1 < b.2.2) (hsep : a.2.2 ≤ b.2.1) : overlaps a b = false := by
  simp only [overlaps, _match_overlaps, Bool.or_eq_false_iff,
    decide_eq_false_iff_not, not_and, not_lt, not_le]
  omega

/-- In a sorted chain of proper, adjacently non-overlapping matches,
the head is separated from every later element. -/
theorem chain_sep (curr : MatchTup) (l : List MatchTup)
    (hproper : ∀ m ∈ curr :: l, m.2.1 < m.2.2)
    (hsorted : (curr :: l).Pairwise (fun a b => matchLe a b = true))
    (hchain : List.Chain (fun a b => overlaps a b = false) curr l) :
    ∀ x ∈ l, curr.2.2 ≤ x.2.1 := by
  induction l generalizing curr with
  | nil => intro x hx; cases hx
  | cons n rest ih =>
    rcases hchain with _ | ⟨hov, hrest⟩
    have hle : matchLe curr n = true := by
      exact List.rel_of_pairwise_cons hsorted (List.mem_cons_self n rest)
    have hsep : curr.2.2 ≤ n.2.1 := sep_of_adjacent curr n hle hov
    intro x hx
    rcases List.mem_cons.mp hx with rfl | hx
    · exact hsep
    · have hn : n.2.2 ≤ x.2.1 := by
        refine ih n ?_ ?_ hrest x hx
        · intro m hm
          exact hproper m (List.mem_cons_of_mem curr hm)
        · exact hsorted.of_cons
      have hnp : n.2.1 < n.2.2 :=
        hproper n (List.mem_cons_of_mem curr (List.mem_cons_self n rest))
      omega

/-- A sorted list of proper matches in which no two adjacent entries
overlap has no overlap between any two of its entries. -/
theorem pairwise_nonov_of_sorted_chain (l : List MatchTup)
    (hproper : ∀ m ∈ l, m.2.1 < m.2.2)
    (hsorted : l.Pairwise (fun a b => matchLe a b = true))
    (hchain : List.Chain' (fun a b => overlaps a b = false) l) :
    l.Pairwise (fun a b => overlaps a b = false) := by
  induction l with
  | nil => exact List.Pairwise.nil
  | cons c rest ih =>
    have hch : List.Chain (fun a b => overlaps a b = false) c rest := hchain
    refine List.Pairwise.cons ?_ ?_
    · intro x hx
      have hsep := chain_sep c rest hproper hsorted hch x hx
      exact nonov_of_sep c x (hproper c (List.mem_cons_self c rest))
        (hproper x (List.mem_cons_of_mem c hx)) hsep
    · refine ih ?_ hsorted.of_cons ?_
      · intro m hm
        exact hproper m (List.mem_cons_of_mem c hm)
      · cases hch with
        | nil => trivial
        | cons h1 h2 => exact h2

/-- With the `"longest"` strategy, pruning always succeeds. -/
theorem prune_longest_ok (matchList : List MatchTup) :
    ∃ out, prune_overlapping_matches matchList "longest" = Except.ok out := by
  suffices h : ∀ (ml : List MatchTup) (s : String), s = "longest" →
      ∃ out, prune_overlapping_matches ml s = Except.ok out from
    h matchList "longest" rfl
  intro ml s
  induction ml, s using prune_overlapping_matches.induct with
  | case1 ml s hs => intro h; exact absurd h hs
  | case2 ml s hs hsort =>
    rintro rfl
    exact ⟨ml, prune_eq_nil ml hsort⟩
  | case3 ml s hs curr_match unpruned hsort pruned hfix =>
    rintro rfl
    exact ⟨pruneLoop curr_match unpruned,
      by rw [prune_eq_cons ml curr_match unpruned hsort, if_pos hfix]⟩
  | case4 ml s hs curr_match unpruned hsort pruned hne ih =>
    rintro rfl
    obtain ⟨out, hout⟩ := ih rfl
    exact ⟨out, by rw [prune_eq_cons ml curr_match unpruned hsort, if_neg hne]; exact hout⟩

/-- Claim C1.  For every finite list of match triples (matches have
`start < end`), pruning with the `"longest"` strategy succeeds and its
output contains no two distinct matches for which the overlap test
holds: the output list is pairwise non-overlapping. -/
theorem claim_C1_no_overlap_postcondition (matchList : List MatchTup)
    (hproper : ∀ m ∈ matchList, m.2.1 < m.2.2) :
    ∃ out, prune_overlapping_matches matchList "longest" = Except.ok out ∧
      out.Pairwise (fun a b => overlaps a b = false) := by
  obtain ⟨out, hout⟩ := prune_longest_ok matchList
  refine ⟨out, hout, ?_⟩
  obtain ⟨hsorted, hchain⟩ := prune_ok_sorted_chain matchList "longest" out hout
  have hsub := prune_ok_subperm matchList "longest" out hout
  refine pairwise_nonov_of_sorted_chain out ?_ hsorted hchain
  intro m hm
  exact hproper m (hsub.subset hm)

/-- Witness for C1 at the chained-overlap example from the spec. -/
theorem claim_C1_witness :
    ∃ out,
      prune_overlapping_matches [(1, 0, 3), (2, 2, 6), (3, 5, 9)] "longest" =
        Except.ok out ∧
      out.Pairwise (fun a b => overlaps a b = false) :=
  claim_C1_no_overlap_postcondition [(1, 0, 3), (2, 2, 6), (3, 5, 9)] (by decide)

/-- One sorting-and-sweeping pass per unit of fuel: the same recursion
as `prune_overlapping_matches` (with the `"longest"` strategy fixed),
but refusing to recurse when the fuel runs out.  Used to express that
the source's fixpoint recursion needs only boundedly many passes. -/
def pruneFuelRun : Nat → List MatchTup → Option (List MatchTup)
  | 0, _ => none
  | fuel + 1, matchList =>
    match sortMatches matchList with
    | [] => some matchList
    | curr_match :: unpruned =>
      let pruned := pruneLoop curr_match unpruned
      if pruned.length = matchList.length then some pruned
      else pruneFuelRun fuel pruned

theorem prune_fuel_aux (n : Nat) :
    ∀ matchList : List MatchTup, matchList.length ≤ n →
      ∃ out, prune_overlapping_matches matchList "longest" = Except.ok out ∧
        ∀ fuel, matchList.length < fuel → pruneFuelRun fuel matchList = some out := by
  induction n with
  | zero =>
    intro ml hlen
    have hml : ml = [] := List.length_eq_zero.mp (Nat.le_zero.mp hlen)
    subst hml
    have hsort : sortMatches [] = [] := List.mergeSort_nil
    refine ⟨[], prune_eq_nil [] hsort, ?_⟩
    intro fuel hfuel
    match fuel, hfuel with
    | f + 1, _ =>
      simp only [pruneFuelRun, hsort]
  | succ n ih =>
    intro ml hlen
    match hsort : sortMatches ml with
    | [] =>
      refine ⟨ml, prune_eq_nil ml hsort, ?_⟩
      intro fuel hfuel
      match fuel, hfuel with
      | f + 1, _ =>
        simp only [pruneFuelRun, hsort]
    | curr_match :: unpruned =>
      by_cases hfix : (pruneLoop curr_match unpruned).length = ml.length
      · refine ⟨pruneLoop curr_match unpruned,
          by rw [prune_eq_cons ml curr_match unpruned hsort, if_pos hfix], ?_⟩
        intro fuel hfuel
        match fuel, hfuel with
        | f + 1, _ =>
          simp only [pruneFuelRun, hsort, hfix, if_true]
      · have hlt : (pruneLoop curr_match unpruned).length < ml.length := by
          have h1 := pruneLoop_length curr_match unpruned
          have h2 : (sortMatches ml).length = ml.length := List.length_mergeSort ml
          rw [hsort] at h2
          simp only [List.length_cons] at h2
          omega
        obtain ⟨out, hout, hfuel⟩ := ih (pruneLoop curr_match unpruned) (by omega)
        refine ⟨out,
          by rw [prune_eq_cons ml curr_match unpruned hsort, if_neg hfix]; exact hout, ?_⟩
        intro fuel hf
        match fuel, hf with
        | f + 1, hf =>
          simp only [pruneFuelRun, hsort, hfix, if_false]
          exact hfuel f (by omega)

/-- Claim C2.  Pruning terminates on every finite input: the fixpoint
recursion of `prune_overlapping_matches` recurses only on a strictly
shorter list, so any fuel larger than the input length suffices for
the fuel-bounded iteration to finish, and it agrees with the total
function. -/
theorem claim_C2_fixpoint_termination (matchList : List MatchTup) :
    ∃ out, prune_overlapping_matches matchList "longest" = Except.ok out ∧
      ∀ fuel, matchList.length < fuel → pruneFuelRun fuel matchList = some out :=
  prune_fuel_aux matchList.length matchList (Nat.le_refl _)

/-- Witness for C2: four passes of fuel settle a three-element input. -/
theorem claim_C2_witness :
    ∃ out,
      prune_overlapping_matches [(1, 0, 3), (2, 2, 6), (3, 5, 9)] "longest" =
        Except.ok out ∧
      pruneFuelRun 4 [(1, 0, 3), (2, 2, 6), (3, 5, 9)] = some out := by
  obtain ⟨out, hout, hfuel⟩ :=
    claim_C2_fixpoint_termination [(1, 0, 3), (2, 2, 6), (3, 5, 9)]
  exact ⟨out, hout, hfuel 4 (by decide)⟩

/-- Claim C5.  When the current and next match overlap with exactly
equal span lengths, the collision emits the current match (the one
encountered first in sorted order), and the later one is dropped:
`max` with a key keeps its first argument on ties. -/
theorem claim_C5_tie_keeps_first (curr_match next_match : MatchTup)
    (rest : List MatchTup)
    (hov : overlaps curr_match next_match = true)
    (hlen : next_match.2.2 - next_match.2.1 = curr_match.2.2 - curr_match.2.1) :
    pruneLoop curr_match (next_match :: rest) =
      curr_match ::
        (match rest with
         | [] => []
         | c :: rest2 => pruneLoop c rest2) := by
  have hmax : longer_span curr_match next_match = curr_match := by
    unfold longer_span
    rw [hlen]
    simp
  cases rest with
  | nil =>
    rw [pruneLoop.eq_def]
    simp only [hov, if_true, hmax]
  | cons c rest2 =>
    rw [pruneLoop.eq_def]
    simp only [hov, if_true, hmax]

/-- Witness for C5: two overlapping equal-length matches; the first
in sorted order survives the collision. -/
theorem claim_C5_witness :
    pruneLoop (1, 0, 3) [(2, 1, 4)] = [(1, 0, 3)] :=
  claim_C5_tie_keeps_first (1, 0, 3) (2, 1, 4) [] (by decide) (by decide)

/-- Claim C9.  Any strategy other than `"longest"` fails immediately
with the unimplemented-strategy error; nothing of the input is
examined (the function's result does not depend on the match list). -/
theorem claim_C9_unsupported_strategy (matchList : List MatchTup)
    (strategy : String) (hs : strategy ≠ "longest") :
    prune_overlapping_matches matchList strategy =
      Except.error "No other filtering strategy has been implemented. Coming in a future update." :=
  prune_eq_error matchList strategy hs

/-- Witness for C9 at the spec's example strategy `"shortest"`. -/
theorem claim_C9_witness :
    prune_overlapping_matches [(1, 0, 3)] "shortest" =
      Except.error "No other filtering strategy has been implemented. Coming in a future update." :=
  claim_C9_unsupported_strategy [(1, 0, 3)] "shortest" (by decide)

/-- Claim C10.  The pruned output is a sub-multiset of the input:
every emitted triple occurs in the input (with multiplicity, so
nothing is constructed or altered) and the output is no longer than
the input. -/
theorem claim_C10_output_submultiset (matchList : List MatchTup) :
    ∃ out, prune_overlapping_matches matchList "longest" = Except.ok out ∧
      (∀ x ∈ out, x ∈ matchList) ∧
      (∀ x, out.countP (fun y => y = x) ≤ matchList.countP (fun y => y = x)) ∧
      out.length ≤ matchList.length := by
  obtain ⟨out, hout⟩ := prune_longest_ok matchList
  have hsub := prune_ok_subperm matchList "longest" out hout
  exact ⟨out, hout, fun x hx => hsub.subset hx,
    fun x => hsub.countP_le (fun y => y = x), hsub.length_le⟩

theorem overlaps_comm (a b : MatchTup) : overlaps a b = overlaps b a :=
  Bool.or_comm _ _

/-- Claim C6.  Matches that merely touch at a boundary (the first ends
where the second starts) never satisfy the overlap test, and in the
spec's example both touching matches survive pruning. -/
theorem claim_C6_touching_preserved (a b : MatchTup)
    (ha : a.2.1 < a.2.2) (hb : b.2.1 < b.2.2) (htouch : a.2.2 = b.2.1) :
    overlaps a b = false ∧
      prune_overlapping_matches [(1, 0, 3), (2, 3, 5)] "longest" =
        Except.ok [(1, 0, 3), (2, 3, 5)] := by
  constructor
  · simp only [overlaps, _match_overlaps, Bool.or_eq_false_iff,
      decide_eq_false_iff_not, not_and, not_lt, not_le]
    omega
  · have hsorted : sortMatches [(1, 0, 3), (2, 3, 5)] = [(1, 0, 3), (2, 3, 5)] :=
      List.mergeSort_of_sorted (by decide)
    rw [prune_eq_cons _ _ _ hsorted]
    rw [pruneLoop_of_chain _ _ (List.Chain.cons (by decide) List.Chain.nil)]
    simp

/-- Witness for C6 at proper touching matches `(1,0,3)` and `(2,3,5)`. -/
theorem claim_C6_witness :
    overlaps (1, 0, 3) (2, 3, 5) = false ∧
      prune_overlapping_matches [(1, 0, 3), (2, 3, 5)] "longest" =
        Except.ok [(1, 0, 3), (2, 3, 5)] :=
  claim_C6_touching_preserved (1, 0, 3) (2, 3, 5) (by decide) (by decide) (by decide)

/-- Claim C7.  Pruning a pairwise non-overlapping list returns exactly
that list sorted by `(start, end)`, and pruning is idempotent:
pruning a pruned output returns it unchanged. -/
theorem claim_C7_idempotent (matchList : List MatchTup) :
    (matchList.Pairwise (fun a b => overlaps a b = false) →
      prune_overlapping_matches matchList "longest" =
        Except.ok (sortMatches matchList)) ∧
    (∀ out, prune_overlapping_matches matchList "longest" = Except.ok out →
      prune_overlapping_matches out "longest" = Except.ok out) := by
  constructor
  · intro hpw
    have hpw' : (sortMatches matchList).Pairwise (fun a b => overlaps a b = false) := by
      refine hpw.perm (List.mergeSort_perm matchList matchLe).symm ?_
      intro x y hxy
      rw [overlaps_comm]
      exact hxy
    cases h : sortMatches matchList with
    | nil =>
      have hml : matchList = [] := by
        have hp := List.mergeSort_perm matchList matchLe
        rw [sortMatches] at h
        rw [h] at hp
        exact (List.Perm.nil_eq hp).symm
      rw [prune_eq_nil matchList h, hml]
    | cons c rest =>
      rw [h] at hpw'
      have hch : List.Chain (fun a b => overlaps a b = false) c rest :=
        hpw'.chain'
      have hlen : (c :: rest).length = matchList.length := by
        have h0 : (sortMatches matchList).length = matchList.length :=
          List.length_mergeSort matchList
        rw [h] at h0
        exact h0
      rw [prune_eq_cons matchList c rest h, pruneLoop_of_chain c rest hch,
        if_pos hlen]
  · intro out hout
    obtain ⟨hsorted, hchain⟩ := prune_ok_sorted_chain matchList "longest" out hout
    have hsm : sortMatches out = out := List.mergeSort_of_sorted hsorted
    cases out with
    | nil => exact prune_eq_nil [] (List.mergeSort_nil)
    | cons c rest =>
      have hch : List.Chain (fun a b => overlaps a b = false) c rest := hchain
      rw [prune_eq_cons (c :: rest) c rest hsm, pruneLoop_of_chain c rest hch,
        if_pos rfl]

/-- Witness for C7: a concrete non-overlapping list is returned sorted,
and pruning that output again leaves it fixed. -/
theorem claim_C7_witness :
    prune_overlapping_matches [(1, 0, 3), (2, 3, 5)] "longest" =
      Except.ok (sortMatches [(1, 0, 3), (2, 3, 5)]) ∧
    prune_overlapping_matches (sortMatches [(1, 0, 3), (2, 3, 5)]) "longest" =
      Except.ok (sortMatches [(1, 0, 3), (2, 3, 5)]) :=
  ⟨(claim_C7_idempotent [(1, 0, 3), (2, 3, 5)]).1 (by decide),
    (claim_C7_idempotent [(1, 0, 3), (2, 3, 5)]).2 _
      ((claim_C7_idempotent [(1, 0, 3), (2, 3, 5)]).1 (by decide))⟩

/-- An attribute-pattern token constraint dictionary: opaque to the
matcher core, which only routes it to spaCy's `Matcher`. -/
abbrev TokenDict : Type := List (String × String)

/-- The dynamic type of a rule's `pattern` attribute.  The source
inspects it with `isinstance`: `None` (phrase rule), `str` (regex
source), `list` (token-attribute pattern), or anything else, which is
rejected.  `other` carries the Python type name used in the error
message. -/
inductive Pattern where
  | none : Pattern
  | str : String → Pattern
  | list : List TokenDict → Pattern
  | other : String → Pattern
deriving DecidableEq

/-- A rule inheriting from `medspacy.common.BaseRule`: a category, a
pattern (possibly `None`), a literal phrase, and the `_rule_id` slot
the registry fills in at registration (the `on_match` callback is
opaque to the core and not modelled). -/
structure BaseRule where
  category : String
  pattern : Pattern
  literal : String
  _rule_id : Option String := Option.none
deriving DecidableEq

/-- Python `set.add`. -/
def setAdd (s : List String) (x : String) : List String :=
  if x ∈ s then s else s ++ [x]

/-- Python `dict.__setitem__`: overwrite the entry in place if the key
exists, else append. -/
def dictInsert (m : List (String × BaseRule)) (k : String) (v : BaseRule) :
    List (String × BaseRule) :=
  if m.any (fun p => p.1 = k) then
    m.map (fun p => if p.1 = k then (k, v) else p)
  else
    m ++ [(k, v)]

/-- The registry state of `MedspacyMatcher.__init__`.  The three
engines are modelled by what `add` feeds them: the list of
`(rule_id, payload)` registrations. -/
structure MedspacyMatcher where
  _labels : List String
  _rule_map : List (String × BaseRule)
  __matcher : List (String × List TokenDict)
  __phrase_matcher : List (String × String)
  __regex_matcher : List (String × List String)
  __rule_count : Nat
  __phrase_matcher_attr : String
deriving DecidableEq

/-- `MedspacyMatcher(nlp, phrase_matcher_attr="LOWER")`: all engines
empty, rule counter zero. -/
def MedspacyMatcher.init (phrase_matcher_attr : String := "LOWER") :
    MedspacyMatcher :=
  { _labels := []
    _rule_map := []
    __matcher := []
    __phrase_matcher := []
    __regex_matcher := []
    __rule_count := 0
    __phrase_matcher_attr := phrase_matcher_attr }

/-- Source `MedspacyMatcher.add(rules)`.  For each rule in order: add
its category to `_labels`, assign `rule_id = f"{category}_{count}"`
(mutating the rule), store it in `_rule_map`, then dispatch on the
pattern type — string to the regex matcher, list to the token matcher,
`None` to the phrase matcher (lower-casing the literal when the phrase
attribute is `"lower"` case-insensitively) — and only then increment
the counter.  Any other pattern type raises `ValueError` at that
point, leaving the partial mutations in place.  The result is the
final registry state, the rules processed so far (with `_rule_id`
assigned, the erroring rule included), and the error, if any. -/
def MedspacyMatcher.add (m : MedspacyMatcher) :
    List BaseRule → MedspacyMatcher × List BaseRule × Option String
  | [] => (m, [], Option.none)
  | rule :: rest =>
    let _labels := setAdd m._labels rule.category
    let rule_id := rule.category ++ "_" ++ toString m.__rule_count
    let rule' := { rule with _rule_id := some rule_id }
    let _rule_map := dictInsert m._rule_map rule_id rule'
    match rule.pattern with
    | Pattern.str s =>
      let m' := { m with
        _labels, _rule_map
        __regex_matcher := m.__regex_matcher ++ [(rule_id, [s])]
        __rule_count := m.__rule_count + 1 }
      let (mf, processed, err) := m'.add rest
      (mf, rule' :: processed, err)
    | Pattern.list l =>
      let m' := { m with
        _labels, _rule_map
        __matcher := m.__matcher ++ [(rule_id, l)]
        __rule_count := m.__rule_count + 1 }
      let (mf, processed, err) := m'.add rest
      (mf, rule' :: processed, err)
    | Pattern.none =>
      let text :=
        if m.__phrase_matcher_attr.toLower = "lower" then rule.literal.toLower
        else rule.literal
      let m' := { m with
        _labels, _rule_map
        __phrase_matcher := m.__phrase_matcher ++ [(rule_id, text)]
        __rule_count := m.__rule_count + 1 }
      let (mf, processed, err) := m'.add rest
      (mf, rule' :: processed, err)
    | Pattern.other ty =>
      ({ m with _labels, _rule_map }, [rule'],
        some ("The pattern argument must be either a string or a list, not " ++ ty))

/-- The pattern types `add` accepts: `None`, `str` or `list`. -/
def patternSupported : Pattern → Bool
  | Pattern.other _ => false
  | _ => true

/-- A rule whose pattern is neither absent, nor a string, nor a list
(in Python e.g. an `int`), rejected by `add`. -/
def badIntRule : BaseRule :=
  { category := "A", pattern := Pattern.other "int", literal := "" }

/-- A well-formed phrase (literal) rule. -/
def phraseRule : BaseRule :=
  { category := "A", pattern := Pattern.none, literal := "history of" }

/-- Counterexample to claim C4 as stated: after `add` rejects a rule
with an unsupported pattern type, the rejected rule is *not*
trace-free — its category has been added to the category set and the
rule sits in the rule map under its assigned id, because the source
performs those mutations before inspecting the pattern type. -/
theorem claim_C4_counterexample :
    (((MedspacyMatcher.init "LOWER").add [badIntRule]).2.2 =
      some "The pattern argument must be either a string or a list, not int") ∧
    ((MedspacyMatcher.init "LOWER").add [badIntRule]).1._rule_map =
      [("A_0", { badIntRule with _rule_id := some "A_0" })] ∧
    ((MedspacyMatcher.init "LOWER").add [badIntRule]).1._labels = ["A"] := by
  refine ⟨?_, ?_, ?_⟩ <;> rfl

/-- Claim C4, amended.  A rule with an unsupported pattern type makes
`add` raise the invalid-pattern `ValueError` and abort the batch:
rules before it are fully processed, rules after it are untouched, no
engine receives the rejected rule and the rule counter is not
advanced; however the rejected rule's category *is* recorded in the
category set and the rule (with its assigned id) *is* stored in the
rule map before the error is raised.  First conjunct: the exact effect
of hitting the bad rule.  Second conjunct: a batch with an error-free
prefix processes that prefix exactly as if it were added alone. -/
theorem claim_C4_invalid_rule_aborts :
    (∀ (m : MedspacyMatcher) (bad : BaseRule) (rest : List BaseRule) (ty : String),
      bad.pattern = Pattern.other ty →
      m.add (bad :: rest) =
        (let rid := bad.category ++ "_" ++ toString m.__rule_count
         let bad' := { bad with _rule_id := some rid }
         ({ m with
            _labels := setAdd m._labels bad.category,
            _rule_map := dictInsert m._rule_map rid bad' },
          [bad'],
          some ("The pattern argument must be either a string or a list, not " ++ ty)))) ∧
    (∀ (m : MedspacyMatcher) (xs ys : List BaseRule),
      (∀ r ∈ xs, patternSupported r.pattern = true) →
      m.add (xs ++ ys) =
        (((m.add xs).1.add ys).1,
         (m.add xs).2.1 ++ ((m.add xs).1.add ys).2.1,
         ((m.add xs).1.add ys).2.2)) := by
  constructor
  · intro m bad rest ty hbad
    simp only [MedspacyMatcher.add, hbad]
  · intro m xs ys hxs
    induction xs generalizing m with
    | nil => simp [MedspacyMatcher.add]
    | cons x xs ih =>
      have hx : patternSupported x.pattern = true :=
        hxs x (List.mem_cons_self x xs)
      have hxs' : ∀ r ∈ xs, patternSupported r.pattern = true := fun r hr =>
        hxs r (List.mem_cons_of_mem x hr)
      cases hp : x.pattern with
      | other ty => rw [hp] at hx; simp [patternSupported] at hx
      | str s =>
        simp only [List.cons_append, MedspacyMatcher.add, hp, List.append_eq]
        rw [ih _ hxs']
      | list l =>
        simp only [List.cons_append, MedspacyMatcher.add, hp, List.append_eq]
        rw [ih _ hxs']
      | none =>
        simp only [List.cons_append, MedspacyMatcher.add, hp, List.append_eq]
        rw [ih _ hxs']

/-- Witness for C4: a bad rule at the head of a batch, and a batch
whose error-free prefix is one phrase rule. -/
theorem claim_C4_witness :
    ((MedspacyMatcher.init "LOWER").add [badIntRule] =
      (let rid := badIntRule.category ++ "_" ++
        toString (MedspacyMatcher.init "LOWER").__rule_count
       let bad' := { badIntRule with _rule_id := some rid }
       ({ MedspacyMatcher.init "LOWER" with
          _labels := setAdd (MedspacyMatcher.init "LOWER")._labels badIntRule.category,
          _rule_map := dictInsert (MedspacyMatcher.init "LOWER")._rule_map rid bad' },
        [bad'],
        some ("The pattern argument must be either a string or a list, not " ++ "int")))) ∧
    (MedspacyMatcher.init "LOWER").add ([phraseRule] ++ [badIntRule]) =
      ((((MedspacyMatcher.init "LOWER").add [phraseRule]).1.add [badIntRule]).1,
       ((MedspacyMatcher.init "LOWER").add [phraseRule]).2.1 ++
         (((MedspacyMatcher.init "LOWER").add [phraseRule]).1.add [badIntRule]).2.1,
       (((MedspacyMatcher.init "LOWER").add [phraseRule]).1.add [badIntRule]).2.2) :=
  ⟨claim_C4_invalid_rule_aborts.1 (MedspacyMatcher.init "LOWER") badIntRule [] "int" rfl,
    claim_C4_invalid_rule_aborts.2 (MedspacyMatcher.init "LOWER") [phraseRule]
      [badIntRule] (by decide)⟩

/-- `Nat.toDigitsCore` computes the base-10 digits (most significant
first) of a positive number, given enough fuel. -/
theorem toDigitsCore_eq_digits :
    ∀ (fuel n : Nat) (ds : List Char), 0 < n → n < fuel →
      Nat.toDigitsCore 10 fuel n ds =
        ((Nat.digits 10 n).map Nat.digitChar).reverse ++ ds := by
  intro fuel
  induction fuel with
  | zero => intro n ds hn hfuel; omega
  | succ f ih =>
    intro n ds hn hfuel
    rw [Nat.toDigitsCore]
    by_cases h10 : n / 10 = 0
    · rw [if_pos h10]
      have hdig : Nat.digits 10 n = [n % 10] := by
        rw [Nat.digits_def' (b := 10) (by norm_num) hn, h10]
        simp
      rw [hdig]
      simp
    · rw [if_neg h10]
      have hlt : n / 10 < f := by
        have hself : n / 10 < n := Nat.div_lt_self hn (by norm_num)
        omega
      rw [ih (n / 10) _ (Nat.pos_of_ne_zero h10) hlt]
      rw [Nat.digits_def' (b := 10) (by norm_num) hn]
      simp

theorem repr_eq_digits (n : Nat) (hn : 0 < n) :
    Nat.repr n = (((Nat.digits 10 n).map Nat.digitChar).reverse).asString := by
  rw [Nat.repr, Nat.toDigits, toDigitsCore_eq_digits (n + 1) n [] hn (by omega)]
  rw [List.append_nil]

theorem digitChar_inj_lt :
    ∀ d1 < 10, ∀ d2 < 10, Nat.digitChar d1 = Nat.digitChar d2 → d1 = d2 := by
  decide

theorem digitChar_ne_underscore : ∀ d < 10, Nat.digitChar d ≠ '_' := by
  decide

theorem map_digitChar_inj :
    ∀ (l1 l2 : List Nat), (∀ x ∈ l1, x < 10) → (∀ x ∈ l2, x < 10) →
      l1.map Nat.digitChar = l2.map Nat.digitChar → l1 = l2 := by
  intro l1
  induction l1 with
  | nil =>
    intro l2 _ _ h
    cases l2 with
    | nil => rfl
    | cons y l2 => simp at h
  | cons x l1 ih =>
    intro l2 h1 h2 h
    cases l2 with
    | nil => simp at h
    | cons y l2 =>
      simp only [List.map_cons, List.cons.injEq] at h
      have hx := h1 x (List.mem_cons_self x l1)
      have hy := h2 y (List.mem_cons_self y l2)
      have hxy := digitChar_inj_lt x hx y hy h.1
      rw [hxy, ih l2 (fun z hz => h1 z (List.mem_cons_of_mem x hz))
        (fun z hz => h2 z (List.mem_cons_of_mem y hz)) h.2]

theorem Nat_repr_inj (m n : Nat) (h : Nat.repr m = Nat.repr n) : m = n := by
  rcases Nat.eq_zero_or_pos m with rfl | hm <;>
    rcases Nat.eq_zero_or_pos n with rfl | hn
  · rfl
  · exfalso
    rw [repr_eq_digits n hn] at h
    have hd : List.reverse ((Nat.digits 10 n).map Nat.digitChar) = ['0'] := by
      have h2 := congrArg String.data h
      exact h2.symm
    have hmap : (Nat.digits 10 n).map Nat.digitChar = ['0'] := by
      have := congrArg List.reverse hd
      simpa using this
    have hdig : Nat.digits 10 n = [0] := by
      refine map_digitChar_inj _ [0] ?_ (by simp) ?_
      · intro x hx
        exact Nat.digits_lt_base (by norm_num) hx
      · rw [hmap]
        rfl
    have := Nat.ofDigits_digits 10 n
    rw [hdig] at this
    simp [Nat.ofDigits] at this
    omega
  · exfalso
    rw [repr_eq_digits m hm] at h
    have hd : List.reverse ((Nat.digits 10 m).map Nat.digitChar) = ['0'] := by
      have h2 := congrArg String.data h
      exact h2
    have hmap : (Nat.digits 10 m).map Nat.digitChar = ['0'] := by
      have := congrArg List.reverse hd
      simpa using this
    have hdig : Nat.digits 10 m = [0] := by
      refine map_digitChar_inj _ [0] ?_ (by simp) ?_
      · intro x hx
        exact Nat.digits_lt_base (by norm_num) hx
      · rw [hmap]
        rfl
    have := Nat.ofDigits_digits 10 m
    rw [hdig] at this
    simp [Nat.ofDigits] at this
    omega
  · rw [repr_eq_digits m hm, repr_eq_digits n hn] at h
    have hd : List.reverse ((Nat.digits 10 m).map Nat.digitChar) =
        List.reverse ((Nat.digits 10 n).map Nat.digitChar) :=
      congrArg String.data h
    have hmap : (Nat.digits 10 m).map Nat.digitChar =
        (Nat.digits 10 n).map Nat.digitChar := by
      have := congrArg List.reverse hd
      simpa using this
    have hdig : Nat.digits 10 m = Nat.digits 10 n := by
      refine map_digitChar_inj _ _ ?_ ?_ hmap
      · intro x hx
        exact Nat.digits_lt_base (by norm_num) hx
      · intro x hx
        exact Nat.digits_lt_base (by norm_num) hx
    have h1 := Nat.ofDigits_digits 10 m
    have h2 := Nat.ofDigits_digits 10 n
    rw [← h1, ← h2, hdig]

theorem repr_no_underscore (n : Nat) : ∀ c ∈ (Nat.repr n).data, c ≠ '_' := by
  rcases Nat.eq_zero_or_pos n with rfl | hn
  · intro c hc
    have : c ∈ ['0'] := hc
    simp at this
    rw [this]
    decide
  · rw [repr_eq_digits n hn]
    intro c hc
    have hc' : c ∈ (Nat.digits 10 n).map Nat.digitChar := by
      have : c ∈ List.reverse ((Nat.digits 10 n).map Nat.digitChar) := hc
      simpa using this
    obtain ⟨d, hd, rfl⟩ := List.mem_map.mp hc'
    exact digitChar_ne_underscore d (Nat.digits_lt_base (by norm_num) hd)

/-- Splitting at the last underscore: if the suffixes after an
explicit underscore are underscore-free, they agree. -/
theorem underscore_split :
    ∀ (x y a b : List Char), (∀ c ∈ a, c ≠ '_') → (∀ c ∈ b, c ≠ '_') →
      x ++ '_' :: a = y ++ '_' :: b → a = b := by
  intro x
  induction x with
  | nil =>
    intro y a b ha hb h
    cases y with
    | nil => simpa using h
    | cons c y =>
      simp only [List.nil_append, List.cons_append, List.cons.injEq] at h
      exfalso
      refine ha '_' ?_ rfl
      rw [h.2]
      exact List.mem_append_right y (List.mem_cons_self '_' b)
  | cons c x ih =>
    intro y a b ha hb h
    cases y with
    | nil =>
      simp only [List.cons_append, List.nil_append, List.cons.injEq] at h
      exfalso
      refine hb '_' ?_ rfl
      rw [← h.2]
      exact List.mem_append_right x (List.mem_cons_self '_' a)
    | cons c2 y =>
      simp only [List.cons_append, List.cons.injEq] at h
      exact ih y a b ha hb h.2

/-- The numeric suffix of a rule id `category + "_" + str(count)` is
recoverable: equal rule ids force equal counters, whatever the
categories contain. -/
theorem rule_id_inj (c1 c2 : String) (n1 n2 : Nat)
    (h : c1 ++ "_" ++ toString n1 = c2 ++ "_" ++ toString n2) : n1 = n2 := by
  have hd : c1.data ++ '_' :: (Nat.repr n1).data =
      c2.data ++ '_' :: (Nat.repr n2).data := by
    have := congrArg String.data h
    simpa [String.data_append] using this
  have hsuffix := underscore_split c1.data c2.data _ _
    (repr_no_underscore n1) (repr_no_underscore n2) hd
  exact Nat_repr_inj n1 n2 (String.ext hsuffix)

/-- A well-formed phrase rule with the same category as `badIntRule`. -/
def goodARule : BaseRule :=
  { category := "A", pattern := Pattern.none, literal := "a" }

/-- Counterexample to claim C8 as stated: over a sequence of `add`
calls in which one call fails, two different rules receive the same
`rule_id`.  The failing rule is assigned `"A_0"` before the error is
raised, but the counter is not advanced (the increment is the last
statement of the loop body), so the next `add` call assigns `"A_0"`
again. -/
theorem claim_C8_counterexample :
    ((MedspacyMatcher.init "LOWER").add [badIntRule]).2.1.map BaseRule._rule_id
        = [some "A_0"] ∧
    ((((MedspacyMatcher.init "LOWER").add [badIntRule]).1).add [goodARule]).2.1.map
        BaseRule._rule_id = [some "A_0"] ∧
    badIntRule ≠ goodARule := by
  refine ⟨rfl, rfl, by decide⟩

/-- A sequence of `add` calls on one registry instance, collecting the
rules processed (and so id-assigned) by each call. -/
def addBatches (m : MedspacyMatcher) :
    List (List BaseRule) → MedspacyMatcher × List BaseRule
  | [] => (m, [])
  | b :: bs =>
    let r := m.add b
    let r2 := addBatches r.1 bs
    (r2.1, r.2.1 ++ r2.2)

/-- On a batch of supported-pattern rules, `add` succeeds, advances
the counter once per rule, and assigns consecutive global sequence
numbers, each id being `category ++ "_" ++ str(count)`. -/
theorem add_valid_spec :
    ∀ (rules : List BaseRule) (m : MedspacyMatcher),
      (∀ r ∈ rules, patternSupported r.pattern = true) →
      (m.add rules).2.2 = Option.none ∧
      (m.add rules).1.__rule_count = m.__rule_count + rules.length ∧
      (m.add rules).2.1.map BaseRule._rule_id =
        List.zipWith (fun (r : BaseRule) (n : Nat) =>
            some (r.category ++ "_" ++ toString n))
          rules (List.range' m.__rule_count rules.length) := by
  intro rules
  induction rules with
  | nil =>
    intro m _
    refine ⟨rfl, by simp [MedspacyMatcher.add], by simp [MedspacyMatcher.add]⟩
  | cons rule rest ih =>
    intro m hsup
    have hr : patternSupported rule.pattern = true :=
      hsup rule (List.mem_cons_self rule rest)
    have hrest : ∀ r ∈ rest, patternSupported r.pattern = true := fun r hr2 =>
      hsup r (List.mem_cons_of_mem rule hr2)
    cases hp : rule.pattern with
    | other ty => rw [hp] at hr; simp [patternSupported] at hr
    | str s =>
      simp only [MedspacyMatcher.add, hp]
      obtain ⟨h1, h2, h3⟩ := ih _ hrest
      refine ⟨h1, by simp only [h2]; simp [List.length_cons]; omega, ?_⟩
      simp only [List.map_cons, h3, List.length_cons, List.range'_succ]
      rfl
    | list l =>
      simp only [MedspacyMatcher.add, hp]
      obtain ⟨h1, h2, h3⟩ := ih _ hrest
      refine ⟨h1, by simp only [h2]; simp [List.length_cons]; omega, ?_⟩
      simp only [List.map_cons, h3, List.length_cons, List.range'_succ]
      rfl
    | none =>
      simp only [MedspacyMatcher.add, hp]
      obtain ⟨h1, h2, h3⟩ := ih _ hrest
      refine ⟨h1, by simp only [h2]; simp [List.length_cons]; omega, ?_⟩
      simp only [List.map_cons, h3, List.length_cons, List.range'_succ]
      rfl

/-- Membership shape of the enumerated id list. -/
theorem zipWith_id_mem :
    ∀ (rules : List BaseRule) (s : Nat) (x : Option String),
      x ∈ List.zipWith (fun (r : BaseRule) (n : Nat) =>
          some (r.category ++ "_" ++ toString n)) rules (List.range' s rules.length) →
      ∃ (cat : String) (n : Nat), s ≤ n ∧ x = some (cat ++ "_" ++ toString n) := by
  intro rules
  induction rules with
  | nil => intro s x hx; simp at hx
  | cons r rest ih =>
    intro s x hx
    rw [List.length_cons, List.range'_succ] at hx
    rcases List.mem_cons.mp hx with rfl | hx
    · exact ⟨r.category, s, Nat.le_refl s, rfl⟩
    · obtain ⟨cat, n, hn, rfl⟩ := ih (s + 1) x hx
      exact ⟨cat, n, by omega, rfl⟩

/-- The enumerated id list has no duplicates: the sequence numbers
are strictly increasing and recoverable from the id string. -/
theorem zipWith_id_nodup :
    ∀ (rules : List BaseRule) (s : Nat),
      (List.zipWith (fun (r : BaseRule) (n : Nat) =>
          some (r.category ++ "_" ++ toString n))
        rules (List.range' s rules.length)).Nodup := by
  intro rules
  induction rules with
  | nil => intro s; simp
  | cons r rest ih =>
    intro s
    rw [List.length_cons, List.range'_succ]
    refine List.Nodup.cons ?_ (ih (s + 1))
    intro hmem
    obtain ⟨cat, n, hn, heq⟩ := zipWith_id_mem rest (s + 1) _ hmem
    have : s = n := rule_id_inj r.category cat s n (by
      have := Option.some.injEq .. ▸ heq
      simpa using heq)
    omega

/-- Claim C8, amended.  For any sequence of `add` calls in which every
rule's pattern is supported (absent, string or list — so no call
raises), no two rules ever receive the same `rule_id`: starting from a
fresh registry, the assigned ids are exactly
`category ++ "_" ++ str(k)` for the global sequence `k = 0, 1, 2, …`,
one per rule regardless of pattern kind, and they are pairwise
distinct.  (When a call does raise, the failing rule keeps an assigned
id while the counter stays put, and the id can be reused — see the
counterexample.) -/
theorem claim_C8_rule_id_unique (batches : List (List BaseRule))
    (hvalid : ∀ r ∈ batches.flatten, patternSupported r.pattern = true) :
    (addBatches (MedspacyMatcher.init "LOWER") batches).2.map BaseRule._rule_id =
      List.zipWith (fun (r : BaseRule) (n : Nat) =>
          some (r.category ++ "_" ++ toString n))
        batches.flatten (List.range' 0 batches.flatten.length) ∧
    ((addBatches (MedspacyMatcher.init "LOWER") batches).2.map
        BaseRule._rule_id).Nodup ∧
    (addBatches (MedspacyMatcher.init "LOWER") batches).1.__rule_count =
      batches.flatten.length := by
  suffices h : ∀ (bs : List (List BaseRule)) (m : MedspacyMatcher),
      (∀ r ∈ bs.flatten, patternSupported r.pattern = true) →
      (addBatches m bs).2.map BaseRule._rule_id =
        List.zipWith (fun (r : BaseRule) (n : Nat) =>
            some (r.category ++ "_" ++ toString n))
          bs.flatten (List.range' m.__rule_count bs.flatten.length) ∧
      (addBatches m bs).1.__rule_count = m.__rule_count + bs.flatten.length by
    obtain ⟨h1, h2⟩ := h batches (MedspacyMatcher.init "LOWER") hvalid
    refine ⟨h1, ?_, by simpa [MedspacyMatcher.init] using h2⟩
    rw [h1]
    exact zipWith_id_nodup batches.flatten 0
  intro bs
  induction bs with
  | nil =>
    intro m _
    exact ⟨rfl, rfl⟩
  | cons b bs ih =>
    intro m hv
    have hb : ∀ r ∈ b, patternSupported r.pattern = true := fun r hr =>
      hv r (by simp [List.mem_flatten]; exact Or.inl hr)
    have hbs : ∀ r ∈ bs.flatten, patternSupported r.pattern = true := fun r hr => by
      refine hv r ?_
      rw [List.flatten_cons]
      exact List.mem_append_right b hr
    obtain ⟨hnone, hcount, hids⟩ := add_valid_spec b m hb
    obtain ⟨ih1, ih2⟩ := ih (m.add b).1 hbs
    simp only [addBatches, List.flatten_cons, List.map_append]
    constructor
    · rw [hids, ih1, hcount]
      rw [← List.zipWith_append _ b bs.flatten (List.range' m.__rule_count b.length)
        (List.range' (m.__rule_count + b.length) bs.flatten.length) (by simp)]
      rw [List.range'_append_1, Nat.add_comm bs.flatten.length b.length,
        List.length_append]
    · rw [ih2, hcount]
      rw [List.length_append]
      omega

/-- Witness for C8: two single-rule batches of supported patterns get
the ids `A_0` and `A_1`, pairwise distinct, with the counter at 2. -/
theorem claim_C8_witness :
    (addBatches (MedspacyMatcher.init "LOWER") [[phraseRule], [goodARule]]).2.map
        BaseRule._rule_id =
      List.zipWith (fun (r : BaseRule) (n : Nat) =>
          some (r.category ++ "_" ++ toString n))
        ([[phraseRule], [goodARule]] : List (List BaseRule)).flatten
        (List.range' 0
          ([[phraseRule], [goodARule]] : List (List BaseRule)).flatten.length) ∧
    ((addBatches (MedspacyMatcher.init "LOWER") [[phraseRule], [goodARule]]).2.map
        BaseRule._rule_id).Nodup ∧
    (addBatches (MedspacyMatcher.init "LOWER")
        [[phraseRule], [goodARule]]).1.__rule_count =
      ([[phraseRule], [goodARule]] : List (List BaseRule)).flatten.length :=
  claim_C8_rule_id_unique [[phraseRule], [goodARule]] (by decide)

/-- The spaCy `StringStore` as the core sees it: `doc.vocab.strings`
maps a match id hash back to the string interned under it (for match
ids, the rule id string the rule was registered with). -/
structure Vocab where
  strings : Nat → String

/-- A spaCy `Doc` as the span materializer sees it. -/
structure Doc where
  vocab : Vocab

/-- A spaCy `Span(doc, start=…, end=…, label=…)` as constructed by
`matches_to_spans`; `label=None` is `Option.none`. -/
structure Span where
  doc : Doc
  start : Int
  end_ : Int
  label : Option String

/-- Source `matches_to_spans(doc, matches, set_label=True)`: the
`spans = []; for …: spans.append(…)` loop.  For each `(rule_id, start,
end)` triple, builds `Span(doc, start, end, label)` with `label =
doc.vocab.strings[rule_id]` when `set_label` and `None` otherwise. -/
def matches_to_spans (doc : Doc) (matchList : List MatchTup)
    (set_label : Bool := true) : List Span :=
  matchList.foldl
    (fun spans m =>
      let label := if set_label then some (doc.vocab.strings m.1) else Option.none
      spans ++ [{ doc := doc, start := m.2.1, end_ := m.2.2, label := label }])
    []

theorem matches_to_spans_go (doc : Doc) (set_label : Bool) :
    ∀ (matchList : List MatchTup) (acc : List Span),
      matchList.foldl
        (fun spans m =>
          let label :=
            if set_label then some (doc.vocab.strings m.1) else Option.none
          spans ++ [{ doc := doc, start := m.2.1, end_ := m.2.2, label := label }])
        acc =
      acc ++ matchList.map (fun m =>
        { doc := doc, start := m.2.1, end_ := m.2.2,
          label := if set_label then some (doc.vocab.strings m.1)
                   else Option.none }) := by
  intro matchList
  induction matchList with
  | nil => intro acc; simp
  | cons m rest ih =>
    intro acc
    rw [List.foldl_cons, ih, List.map_cons]
    simp

/-- Claim C3, amended.  `matches_to_spans` produces one span per match
over the same `[start, end)` token range, referencing the unmodified
document; when `set_label` is true the span's label is the string the
document's string store resolves for the match id — i.e. the *rule id*
string `category + "_" + n`, not the bare category — and when
`set_label` is false the label is `None`. -/
theorem claim_C3_span_labels (doc : Doc) (matchList : List MatchTup)
    (set_label : Bool) :
    matches_to_spans doc matchList set_label =
      matchList.map (fun m =>
        { doc := doc, start := m.2.1, end_ := m.2.2,
          label := if set_label then some (doc.vocab.strings m.1)
                   else Option.none }) := by
  rw [matches_to_spans, matches_to_spans_go doc set_label matchList []]
  simp

/-- A document whose string store resolves hash 42 to the rule id
`"A_0"` (as spaCy's vocab does after registering a rule under it). -/
def docA : Doc := ⟨⟨fun n => if n = 42 then "A_0" else ""⟩⟩

/-- Counterexample to claim C3 as stated: with `set_label=True` the
span label is the full rule id string resolved from the string store
(`"A_0"`), which is *not* the category (`"A"`) of the rule owning that
rule id in the registry built by `add`. -/
theorem claim_C3_counterexample :
    (matches_to_spans docA [(42, 0, 3)] true).map Span.label = [some "A_0"] ∧
    (((MedspacyMatcher.init "LOWER").add [goodARule]).1._rule_map.lookup
        "A_0").map BaseRule.category = some "A" ∧
    some "A_0" ≠ some "A" := by
  refine ⟨rfl, rfl, by decide⟩

end Medspacy
